import Mathlib

/-!
Verification of the pyPRISM numerical-kernel layer:
`typyPRISM/closure/PercusYevick.py` and
`pyPRISM/potential/WeeksChandlerAndersen.py`, shallowly embedded over `ℝ`
with lists standing for numpy arrays.
-/

namespace PyPRISM

/-- Faults surfaced by `PercusYevick.calculate`: the two `assert` statements of
the source line 100 and line 102, plus the numpy faults that a mismatched
boolean mask (`IndexError`) or an unset `sigma` (`TypeError` in `r > None`)
would raise inside the hard-core branch. -/
inductive PYError where
  | potentialNotSet
  | domainMismatch
  | indexError
  | typeError
  deriving DecidableEq, Repr

/-- State of a `PercusYevick` closure instance: the fields set by
`__init__` (source lines 78-81) and later bound by the orchestrator. -/
structure PercusYevick where
  potential : Option (List ℝ)
  value : Option (List ℝ)
  sigma : Option ℝ
  apply_hard_core : Bool

/-- Elementwise `(np.exp(-potential)-1.0)*(1.0+gamma)` of source line 112
(also the right-hand side of the masked assignment on line 110). -/
noncomputable def pyFormula : List ℝ → List ℝ → List ℝ
  | u :: us, g :: gs => (Real.exp (-u) - 1) * (1 + g) :: pyFormula us gs
  | _, _ => []

/-- The hard-core branch of source lines 104-110 for equal-length arrays:
`self.value = -1 - gamma` followed by the masked overwrite
`self.value[r > sigma] = (np.exp(-potential[mask])-1.0)*(1.0+gamma[mask])`;
with the mask length matching, the two passes fuse to one elementwise
conditional. -/
noncomputable def pyHardCore (s : ℝ) : List ℝ → List ℝ → List ℝ → List ℝ
  | r :: rs, u :: us, g :: gs =>
      (if r > s then (Real.exp (-u) - 1) * (1 + g) else -1 - g)
        :: pyHardCore s rs us gs
  | _, _, _ => []

/-- `PercusYevick.calculate(self, r, gamma)` (source lines 86-115).  The
returned pair is the closure state after the call together with the normal
return value or the fault raised.  The two asserts fire before any array
arithmetic; in the hard-core branch `self.value` is first set to
`-1 - gamma`, so a mask whose length differs from the value array leaves
that partial value behind when numpy raises `IndexError`. -/
noncomputable def PercusYevick.calculate (st : PercusYevick) (r gamma : List ℝ) :
    PercusYevick × Except PYError (List ℝ) :=
  match st.potential with
  | none => (st, .error .potentialNotSet)
  | some u =>
    if gamma.length = u.length then
      if st.apply_hard_core then
        match st.sigma with
        | none => ({ st with value := some (gamma.map (fun g => -1 - g)) },
                   .error .typeError)
        | some s =>
          if r.length = gamma.length then
            ({ st with value := some (pyHardCore s r u gamma) },
             .ok (pyHardCore s r u gamma))
          else
            ({ st with value := some (gamma.map (fun g => -1 - g)) },
             .error .indexError)
      else
        ({ st with value := some (pyFormula u gamma) },
         .ok (pyFormula u gamma))
    else (st, .error .domainMismatch)

theorem pyFormula_length : ∀ u g : List ℝ, u.length = g.length →
    (pyFormula u g).length = u.length := by
  intro u
  induction u with
  | nil => intro g _; cases g <;> simp [pyFormula]
  | cons a us ih =>
    intro g hg
    cases g with
    | nil => simp at hg
    | cons b gs =>
      simp [pyFormula]
      exact ih gs (by simpa using hg)

theorem pyFormula_getD (u g : List ℝ) (h : u.length = g.length) :
    ∀ i, i < u.length →
      (pyFormula u g).getD i 0 =
        (Real.exp (-(u.getD i 0)) - 1) * (1 + g.getD i 0) := by
  induction u generalizing g with
  | nil => intro i hi; simp at hi
  | cons a us ih =>
    cases g with
    | nil => simp at h
    | cons b gs =>
      intro i hi
      cases i with
      | zero => simp [pyFormula]
      | succ j =>
        simp only [pyFormula, List.getD_cons_succ]
        exact ih gs (by simpa using h) j (by simpa using hi)

theorem pyHardCore_length : ∀ r u g : List ℝ, r.length = u.length →
    u.length = g.length → (pyHardCore s r u g).length = r.length := by
  intro r
  induction r with
  | nil => intro u g _ _; cases u <;> cases g <;> simp [pyHardCore]
  | cons a rs ih =>
    intro u g hru hug
    cases u with
    | nil => simp at hru
    | cons b us =>
      cases g with
      | nil => simp at hug
      | cons c gs =>
        simp [pyHardCore]
        exact ih us gs (by simpa using hru) (by simpa using hug)

theorem pyHardCore_getD (s : ℝ) (r u g : List ℝ) (hru : r.length = u.length)
    (hug : u.length = g.length) : ∀ i, i < r.length →
      (pyHardCore s r u g).getD i 0 =
        if r.getD i 0 > s then
          (Real.exp (-(u.getD i 0)) - 1) * (1 + g.getD i 0)
        else -1 - g.getD i 0 := by
  induction r generalizing u g with
  | nil => intro i hi; simp at hi
  | cons a rs ih =>
    cases u with
    | nil => simp at hru
    | cons b us =>
      cases g with
      | nil => simp at hug
      | cons c gs =>
        intro i hi
        cases i with
        | zero => simp [pyHardCore]
        | succ j =>
          simp only [pyHardCore, List.getD_cons_succ]
          exact ih us gs (by simpa using hru) (by simpa using hug) j
            (by simpa using hi)

/-- C1: with `apply_hard_core=True`, `sigma` and a potential of length `N`
bound, `calculate` over equal-length arrays partitions the grid by the strict
test `r > sigma`: at indices with `r ≤ sigma` the result is `-1 - gamma`, at
indices with `r > sigma` it is `(exp(-potential) - 1) * (1 + gamma)`, and the
boundary point `r = sigma` falls in the hard-core branch. -/
theorem percus_yevick_hard_core_partition
    (st : PercusYevick) (r gamma u : List ℝ) (s : ℝ)
    (hhc : st.apply_hard_core = true)
    (hpot : st.potential = some u)
    (hsig : st.sigma = some s)
    (hlu : u.length = gamma.length)
    (hlr : r.length = gamma.length) :
    (PercusYevick.calculate st r gamma).2 = Except.ok (pyHardCore s r u gamma) ∧
    (pyHardCore s r u gamma).length = gamma.length ∧
    ∀ i, i < gamma.length →
      (r.getD i 0 ≤ s →
        (pyHardCore s r u gamma).getD i 0 = -1 - gamma.getD i 0) ∧
      (r.getD i 0 > s →
        (pyHardCore s r u gamma).getD i 0 =
          (Real.exp (-(u.getD i 0)) - 1) * (1 + gamma.getD i 0)) ∧
      (r.getD i 0 = s →
        (pyHardCore s r u gamma).getD i 0 = -1 - gamma.getD i 0) := by
  have hru : r.length = u.length := hlr.trans hlu.symm
  have hug : u.length = gamma.length := hlu
  refine ⟨?_, ?_, ?_⟩
  · simp [PercusYevick.calculate, hpot, hsig, hhc, hlu, hlr]
  · exact (pyHardCore_length r u gamma hru hug).trans hlr
  · intro i hi
    have hi' : i < r.length := hlr ▸ hi
    have hgd := pyHardCore_getD s r u gamma hru hug i hi'
    refine ⟨?_, ?_, ?_⟩
    · intro hle
      rw [hgd, if_neg (not_lt.mpr hle)]
    · intro hgt
      rw [hgd, if_pos hgt]
    · intro heq
      rw [hgd, if_neg (by rw [heq]; exact lt_irrefl s)]

/-- Witness for C1 at a concrete input: potential `[0, 0]`, `sigma = 1`,
`r = [1, 2]`, `gamma = [0, 0]`. -/
theorem percus_yevick_hard_core_partition_witness :
    (PercusYevick.calculate ⟨some [0, 0], none, some 1, true⟩ [1, 2] [0, 0]).2 =
        Except.ok (pyHardCore 1 [1, 2] [0, 0] [0, 0]) ∧
    (pyHardCore 1 [1, 2] [0, 0] [0, 0]).length = ([(0:ℝ), 0]).length ∧
    ∀ i, i < ([(0:ℝ), 0]).length →
      (([(1:ℝ), 2]).getD i 0 ≤ 1 →
        (pyHardCore 1 [1, 2] [0, 0] [0, 0]).getD i 0 =
          -1 - ([(0:ℝ), 0]).getD i 0) ∧
      (([(1:ℝ), 2]).getD i 0 > 1 →
        (pyHardCore 1 [1, 2] [0, 0] [0, 0]).getD i 0 =
          (Real.exp (-(([(0:ℝ), 0]).getD i 0)) - 1) *
            (1 + ([(0:ℝ), 0]).getD i 0)) ∧
      (([(1:ℝ), 2]).getD i 0 = 1 →
        (pyHardCore 1 [1, 2] [0, 0] [0, 0]).getD i 0 =
          -1 - ([(0:ℝ), 0]).getD i 0) :=
  percus_yevick_hard_core_partition ⟨some [0, 0], none, some 1, true⟩
    [1, 2] [0, 0] [0, 0] 1 rfl rfl rfl (by simp) (by simp)

/-- C2: with `apply_hard_core=False` and a potential `u` of length `N` bound,
`calculate(r, gamma)` with `len(gamma) = N` returns
`(exp(-u) - 1) * (1 + gamma)` elementwise over the entire grid. -/
theorem percus_yevick_no_hard_core
    (st : PercusYevick) (r gamma u : List ℝ)
    (hhc : st.apply_hard_core = false)
    (hpot : st.potential = some u)
    (hlen : gamma.length = u.length) :
    (PercusYevick.calculate st r gamma).2 = Except.ok (pyFormula u gamma) ∧
    (pyFormula u gamma).length = u.length ∧
    ∀ i, i < u.length →
      (pyFormula u gamma).getD i 0 =
        (Real.exp (-(u.getD i 0)) - 1) * (1 + gamma.getD i 0) := by
  refine ⟨?_, ?_, ?_⟩
  · simp [PercusYevick.calculate, hpot, hhc, hlen]
  · exact pyFormula_length u gamma hlen.symm
  · exact pyFormula_getD u gamma hlen.symm

/-- Witness for C2 at a concrete input: potential `[0]`, `r = [2]`,
`gamma = [3]`. -/
theorem percus_yevick_no_hard_core_witness :
    (PercusYevick.calculate ⟨some [0], none, none, false⟩ [2] [3]).2 =
        Except.ok (pyFormula [0] [3]) ∧
    (pyFormula [0] [3]).length = ([(0:ℝ)]).length ∧
    ∀ i, i < ([(0:ℝ)]).length →
      (pyFormula [0] [3]).getD i 0 =
        (Real.exp (-(([(0:ℝ)]).getD i 0)) - 1) * (1 + ([(3:ℝ)]).getD i 0) :=
  percus_yevick_no_hard_core ⟨some [0], none, none, false⟩ [2] [3] [0]
    rfl rfl (by simp)

/-- C6: hard-core closure with `sigma = 1`, bound potential `[5, 5, 0]`:
`calculate([0.5, 1, 1.5], [0.1, 0.1, 0.1])` returns `[-1.1, -1.1, 0]`; the
first two points fall in the hard-core branch because `1` is not strictly
greater than `sigma`, and the third evaluates `(exp(0) - 1) * 1.1 = 0`. -/
theorem percus_yevick_concrete_scenario :
    (PercusYevick.calculate ⟨some [5, 5, 0], none, some 1, true⟩
        [0.5, 1, 1.5] [0.1, 0.1, 0.1]).2 =
      Except.ok [-1.1, -1.1, 0] := by
  have h1 : ¬ ((0.5:ℝ) > 1) := by norm_num
  have h2 : ¬ ((1:ℝ) > 1) := by norm_num
  have h3 : (1.5:ℝ) > 1 := by norm_num
  simp only [PercusYevick.calculate, pyHardCore, List.length_cons, List.length_nil,
    if_pos, if_neg h1, if_neg h2, if_pos h3]
  norm_num [Real.exp_zero]

theorem calculate_ok_inv (st st2 : PercusYevick) (r gamma v : List ℝ)
    (h : PercusYevick.calculate st r gamma = (st2, Except.ok v)) :
    st2 = { st with value := some v } ∧
    ∃ u, st.potential = some u ∧ gamma.length = u.length ∧
      ((∃ s, st.apply_hard_core = true ∧ st.sigma = some s ∧
          r.length = gamma.length ∧ v = pyHardCore s r u gamma) ∨
       (st.apply_hard_core = false ∧ v = pyFormula u gamma)) := by
  obtain ⟨pot, val, sig, ahc⟩ := st
  cases pot with
  | none => simp [PercusYevick.calculate] at h
  | some u =>
    by_cases hlen : gamma.length = u.length
    · cases ahc with
      | true =>
        cases sig with
        | none => simp [PercusYevick.calculate, hlen] at h
        | some s =>
          by_cases hr : r.length = gamma.length
          · have hru : r.length = u.length := hr.trans hlen
            simp [PercusYevick.calculate, hlen, hru] at h
            obtain ⟨h1, h2⟩ := h
            subst h2
            exact ⟨h1.symm, u, rfl, hlen, Or.inl ⟨s, rfl, rfl, hr, rfl⟩⟩
          · have hru : ¬r.length = u.length := fun he => hr (he.trans hlen.symm)
            simp [PercusYevick.calculate, hlen, hru] at h
      | false =>
        simp [PercusYevick.calculate, hlen] at h
        obtain ⟨h1, h2⟩ := h
        subst h2
        exact ⟨h1.symm, u, rfl, hlen, Or.inr ⟨rfl, rfl⟩⟩
    · simp [PercusYevick.calculate, hlen] at h

/-- C3 counterexample: with hard-core off, potential `[0]` bound and
`gamma = [0]` matching it, a mismatched `r = [1, 2]` of length 2 raises no
fault at all: `calculate` returns normally, so a length mismatch involving
`r` does not raise the documented domain-mismatch fault. -/
theorem percus_yevick_r_mismatch_unchecked :
    ([(1:ℝ), 2]).length ≠ ([(0:ℝ)]).length ∧
    (PercusYevick.calculate ⟨some [0], none, none, false⟩ [1, 2] [0]).2 =
      Except.ok [(Real.exp (-0) - 1) * (1 + 0)] := by
  constructor
  · simp
  · simp [PercusYevick.calculate, pyFormula]

/-- C3 amended: `calculate` with `potential` unbound raises the documented
potential-not-set fault, and with `len(gamma) != len(potential)` raises the
documented domain-mismatch fault; both are raised before any array
arithmetic and leave the closure state (in particular the cached `value`)
unchanged.  The length of `r` is not validated against `gamma` or
`potential`. -/
theorem percus_yevick_precondition_faults
    (st : PercusYevick) (r gamma : List ℝ) :
    (st.potential = none →
      PercusYevick.calculate st r gamma =
        (st, Except.error PYError.potentialNotSet)) ∧
    (∀ u, st.potential = some u → gamma.length ≠ u.length →
      PercusYevick.calculate st r gamma =
        (st, Except.error PYError.domainMismatch)) := by
  constructor
  · intro hpot
    unfold PercusYevick.calculate
    rw [hpot]
  · intro u hpot hne
    unfold PercusYevick.calculate
    rw [hpot]
    simp [hne]

/-- Witness for C3: an unbound potential faults, and a `gamma` of length 1
against a bound potential of length 2 faults, both leaving the state (with
its cached value `[7]`) untouched. -/
theorem percus_yevick_precondition_faults_witness :
    PercusYevick.calculate ⟨none, some [7], none, false⟩ [1] [2] =
      (⟨none, some [7], none, false⟩, Except.error PYError.potentialNotSet) ∧
    PercusYevick.calculate ⟨some [0, 0], some [7], none, false⟩ [1] [2] =
      (⟨some [0, 0], some [7], none, false⟩,
        Except.error PYError.domainMismatch) :=
  ⟨(percus_yevick_precondition_faults ⟨none, some [7], none, false⟩
      [1] [2]).1 rfl,
   (percus_yevick_precondition_faults ⟨some [0, 0], some [7], none, false⟩
      [1] [2]).2 [0, 0] rfl (by simp)⟩

/-- C7: `calculate` is deterministic and idempotent: a successful call leaves
the closure in a state from which calling again with the same `r`, `gamma`
returns the same array and the same state, with no dependence on prior
calls. -/
theorem percus_yevick_idempotent (st st2 : PercusYevick) (r gamma v : List ℝ)
    (h : PercusYevick.calculate st r gamma = (st2, Except.ok v)) :
    PercusYevick.calculate st2 r gamma = (st2, Except.ok v) := by
  obtain ⟨h1, u, hpot, hlen, hbranch⟩ := calculate_ok_inv st st2 r gamma v h
  subst h1
  rcases hbranch with ⟨s, hhc, hsig, hr, hv⟩ | ⟨hhc, hv⟩
  · subst hv
    simp [PercusYevick.calculate, hpot, hsig, hhc, hlen, hr]
  · subst hv
    simp [PercusYevick.calculate, hpot, hhc, hlen]

/-- Witness for C7 at a concrete input: a second call from the state left by
a successful non-hard-core call returns the same pair. -/
theorem percus_yevick_idempotent_witness :
    PercusYevick.calculate
        ⟨some [0], some (pyFormula [0] [2]), none, false⟩ [1] [2] =
      (⟨some [0], some (pyFormula [0] [2]), none, false⟩,
        Except.ok (pyFormula [0] [2])) :=
  percus_yevick_idempotent ⟨some [0], none, none, false⟩
    ⟨some [0], some (pyFormula [0] [2]), none, false⟩ [1] [2]
    (pyFormula [0] [2]) rfl

/-- C9: after every successful `calculate` call the closure's cached `value`
field holds exactly the array the call returned. -/
theorem percus_yevick_value_cached (st st2 : PercusYevick)
    (r gamma v : List ℝ)
    (h : PercusYevick.calculate st r gamma = (st2, Except.ok v)) :
    st2.value = some v := by
  obtain ⟨h1, _⟩ := calculate_ok_inv st st2 r gamma v h
  rw [h1]

/-- Witness for C9 at a concrete input. -/
theorem percus_yevick_value_cached_witness :
    (⟨some [0], some (pyFormula [0] [2]), none, false⟩
        : PercusYevick).value = some (pyFormula [0] [2]) :=
  percus_yevick_value_cached ⟨some [0], none, none, false⟩
    ⟨some [0], some (pyFormula [0] [2]), none, false⟩ [1] [2]
    (pyFormula [0] [2]) rfl

theorem pyHardCore_congr (s : ℝ) : ∀ r u1 u2 g : List ℝ,
    r.length = u1.length → r.length = u2.length →
    (∀ i, i < r.length → r.getD i 0 > s → u1.getD i 0 = u2.getD i 0) →
    pyHardCore s r u1 g = pyHardCore s r u2 g := by
  intro r
  induction r with
  | nil =>
    intro u1 u2 g h1 h2 _
    have e1 : u1 = [] := List.length_eq_zero.mp h1.symm
    have e2 : u2 = [] := List.length_eq_zero.mp h2.symm
    rw [e1, e2]
  | cons a rs ih =>
    intro u1 u2 g h1 h2 hag
    cases u1 with
    | nil => simp at h1
    | cons b1 us1 =>
      cases u2 with
      | nil => simp at h2
      | cons b2 us2 =>
        cases g with
        | nil => simp [pyHardCore]
        | cons c gs =>
          simp only [pyHardCore]
          have htail := ih us1 us2 gs (by simpa using h1) (by simpa using h2)
            (fun i hi hgt => by
              simpa using hag (i + 1) (by simpa using hi) (by simpa using hgt))
          rw [htail]
          by_cases hgt : a > s
          · have hb : b1 = b2 := by
              simpa using hag 0 (by simp) (by simpa using hgt)
            rw [if_pos hgt, if_pos hgt, hb]
          · rw [if_neg hgt, if_neg hgt]

/-- C8: with hard-core on, the output of `calculate` does not depend on the
bound potential's entries at in-core indices: two closures whose potentials
agree at every index with `r > sigma` but are arbitrary elsewhere return
identical results, because `exp(-potential)` is only taken at masked
indices. -/
theorem percus_yevick_core_potential_independent
    (st1 st2 : PercusYevick) (r gamma u1 u2 : List ℝ) (s : ℝ)
    (h1pot : st1.potential = some u1) (h2pot : st2.potential = some u2)
    (h1hc : st1.apply_hard_core = true) (h2hc : st2.apply_hard_core = true)
    (h1sig : st1.sigma = some s) (h2sig : st2.sigma = some s)
    (hl1 : u1.length = gamma.length) (hl2 : u2.length = gamma.length)
    (hlr : r.length = gamma.length)
    (hagree : ∀ i, i < r.length → r.getD i 0 > s →
      u1.getD i 0 = u2.getD i 0) :
    (PercusYevick.calculate st1 r gamma).2 =
      (PercusYevick.calculate st2 r gamma).2 := by
  have hcong : pyHardCore s r u1 gamma = pyHardCore s r u2 gamma :=
    pyHardCore_congr s r u1 u2 gamma (hlr.trans hl1.symm)
      (hlr.trans hl2.symm) hagree
  simp [PercusYevick.calculate, h1pot, h2pot, h1hc, h2hc, h1sig, h2sig,
    hl1, hl2, hlr, hcong]

/-- Witness for C8 at a concrete input: potentials `[5]` and `[7]` differ
only at the in-core point `r = 0.5 ≤ sigma = 1`, and both closures return
the same result. -/
theorem percus_yevick_core_potential_independent_witness :
    (PercusYevick.calculate ⟨some [5], none, some 1, true⟩ [0.5] [0]).2 =
      (PercusYevick.calculate ⟨some [7], none, some 1, true⟩ [0.5] [0]).2 :=
  percus_yevick_core_potential_independent
    ⟨some [5], none, some 1, true⟩ ⟨some [7], none, some 1, true⟩
    [0.5] [0] [5] [7] 1 rfl rfl rfl rfl rfl rfl (by simp) (by simp) (by simp)
    (by
      intro i hi hgt
      have hi0 : i = 0 := by simpa using hi
      subst hi0
      simp only [List.getD_cons_zero] at hgt
      norm_num at hgt)

/-- A heap of numpy arrays addressed by position, making array identity and
in-place writes explicit so that aliasing between `calculate`'s inputs and
its result can be observed. -/
abbrev Heap := List (List ℝ)

/-- `PercusYevick.calculate` (source lines 86-115) replayed on an explicit
heap holding the caller's arrays; `ar` and `ag` are the addresses of `r` and
`gamma`, while the bound potential, sigma and hard-core flag are passed
directly.  `self.value = -1 - gamma` (line 106) allocates a fresh array at
address `h.length`; the masked assignment of line 110 writes only into that
fresh array.  The returned address is that of `self.value` on normal return,
`none` when a fault escapes. -/
noncomputable def calculateHeap (h : Heap) (pot : Option (List ℝ))
    (sig : Option ℝ) (ahc : Bool) (ar ag : Nat) : Heap × Option Nat :=
  match pot with
  | none => (h, none)
  | some u =>
    if (h.getD ag []).length = u.length then
      if ahc then
        match sig with
        | none => (h ++ [(h.getD ag []).map (fun g => -1 - g)], none)
        | some s =>
          if (h.getD ar []).length = (h.getD ag []).length then
            ((h ++ [(h.getD ag []).map (fun g => -1 - g)]).set h.length
               (pyHardCore s (h.getD ar []) u (h.getD ag [])), some h.length)
          else (h ++ [(h.getD ag []).map (fun g => -1 - g)], none)
      else (h ++ [pyFormula u (h.getD ag [])], some h.length)
    else (h, none)

theorem getD_append_set (l : List (List ℝ)) (x y : List ℝ) (a : Nat)
    (ha : a < l.length) :
    ((l ++ [x]).set l.length y).getD a [] = l.getD a [] := by
  have hne : l.length ≠ a := (Nat.ne_of_lt ha).symm
  have ha1 : a < ((l ++ [x]).set l.length y).length := by
    simp
    omega
  have ha2 : a < (l ++ [x]).length := by
    simp
    omega
  rw [List.getD_eq_getElem _ _ ha1, List.getElem_set_of_ne hne,
    List.getElem_append_left, List.getD_eq_getElem]
  exact ha

theorem calculateHeap_frame (h : Heap) (pot : Option (List ℝ))
    (sig : Option ℝ) (ahc : Bool) (ar ag : Nat) (a : Nat)
    (ha : a < h.length) :
    (calculateHeap h pot sig ahc ar ag).1.getD a [] = h.getD a [] := by
  unfold calculateHeap
  split
  · rfl
  · split
    · split
      · split
        · exact List.getD_append _ _ _ _ ha
        · split
          · exact getD_append_set h _ _ a ha
          · exact List.getD_append _ _ _ _ ha
      · exact List.getD_append _ _ _ _ ha
    · rfl

/-- C10: `calculate` never mutates its input arrays: for any call replayed on
the explicit heap, the arrays at the addresses of `r` and `gamma` are
unchanged afterwards, and the result (when the call returns normally) lives
at a freshly allocated address beyond every pre-existing one — in the
hard-core branch `-1 - gamma` produces a new array rather than writing into
`gamma` in place. -/
theorem percus_yevick_no_input_mutation (h : Heap) (pot : Option (List ℝ))
    (sig : Option ℝ) (ahc : Bool) (ar ag : Nat)
    (har : ar < h.length) (hag : ag < h.length) :
    (calculateHeap h pot sig ahc ar ag).1.getD ar [] = h.getD ar [] ∧
    (calculateHeap h pot sig ahc ar ag).1.getD ag [] = h.getD ag [] ∧
    ∀ av, (calculateHeap h pot sig ahc ar ag).2 = some av → h.length ≤ av := by
  refine ⟨calculateHeap_frame h pot sig ahc ar ag ar har,
    calculateHeap_frame h pot sig ahc ar ag ag hag, ?_⟩
  intro av hav
  unfold calculateHeap at hav
  split at hav
  · simp at hav
  · split at hav
    · split at hav
      · split at hav
        · simp at hav
        · split at hav
          · simp only [Option.some.injEq] at hav
            omega
          · simp at hav
      · simp only [Option.some.injEq] at hav
        omega
    · simp at hav

/-- Witness for C10 at a concrete input: heap `[[0.5], [0.2]]` holding `r`
at address 0 and `gamma` at address 1, hard-core closure with potential
`[3]` and `sigma = 1`. -/
theorem percus_yevick_no_input_mutation_witness :
    (calculateHeap [[0.5], [0.2]] (some [3]) (some 1) true 0 1).1.getD 0 [] =
        ([[(0.5:ℝ)], [0.2]]).getD 0 [] ∧
    (calculateHeap [[0.5], [0.2]] (some [3]) (some 1) true 0 1).1.getD 1 [] =
        ([[(0.5:ℝ)], [0.2]]).getD 1 [] ∧
    ∀ av, (calculateHeap [[0.5], [0.2]] (some [3]) (some 1) true 0 1).2 =
        some av → ([[(0.5:ℝ)], [0.2]]).length ≤ av :=
  percus_yevick_no_input_mutation [[0.5], [0.2]] (some [3]) (some 1) true 0 1
    (by simp) (by simp)

/-- Modelled from the spec: the `LennardJones` base potential
(`pyPRISM/potential/LennardJones.py` is not among the excerpted sources;
only its subclass `WeeksChandlerAndersen` is).  Immutable parameters fixed
at construction, per the data model of the spec: interaction strength
`epsilon`, length scale `sigma`, optional explicit cutoff `rcut`, boolean
`shift` flag. -/
structure LennardJones where
  epsilon : ℝ
  sigma : ℝ
  rcut : Option ℝ
  shift : Bool

/-- Modelled from the spec: `LennardJones` evaluation
(`pyPRISM/potential/LennardJones.py`, not among the excerpted sources).
The two-term inverse-power form `4*epsilon*((sigma/r)^12 - (sigma/r)^6)`
elementwise; when a cutoff is present, values at `r < rcut` are shifted by
`+epsilon` when the shift flag is on, and values at `r ≥ rcut` are forced
to exactly `0` — the piecewise form documented on the
`WeeksChandlerAndersen` subclass itself (source lines 11-24). -/
noncomputable def LennardJones.evaluate (p : LennardJones) (r : List ℝ) :
    List ℝ :=
  r.map (fun ri =>
    match p.rcut with
    | none => 4 * p.epsilon * ((p.sigma / ri) ^ 12 - (p.sigma / ri) ^ 6)
    | some rc =>
      if ri ≥ rc then 0
      else 4 * p.epsilon * ((p.sigma / ri) ^ 12 - (p.sigma / ri) ^ 6) +
        (if p.shift then p.epsilon else 0))

/-- `WeeksChandlerAndersen.__init__(self, epsilon, sigma)` (source lines
71-84): derive `rcut = sigma * 2**(1.0/6.0)`, force `shift = True`, and
delegate everything else to the base `LennardJones` constructor. -/
noncomputable def WeeksChandlerAndersen (epsilon sigma : ℝ) : LennardJones :=
  { epsilon := epsilon
    sigma := sigma
    rcut := some (sigma * (2:ℝ) ^ ((1:ℝ) / 6))
    shift := true }

/-- C4: for every `epsilon` and `sigma`, the Weeks-Chandler-Andersen
potential is literally the base Lennard-Jones form constructed with
`rcut = sigma * 2^(1/6)` and `shift = True` — the same parameters and the
same evaluation on every grid `r`; the specialization adds no independent
formula. -/
theorem wca_refines_shifted_lj (epsilon sigma : ℝ) (r : List ℝ) :
    WeeksChandlerAndersen epsilon sigma =
      { epsilon := epsilon, sigma := sigma,
        rcut := some (sigma * (2:ℝ) ^ ((1:ℝ) / 6)), shift := true } ∧
    LennardJones.evaluate (WeeksChandlerAndersen epsilon sigma) r =
      LennardJones.evaluate
        { epsilon := epsilon, sigma := sigma,
          rcut := some (sigma * (2:ℝ) ^ ((1:ℝ) / 6)), shift := true } r :=
  ⟨rfl, rfl⟩

/-- C5: elementwise, the Weeks-Chandler-Andersen potential is exactly `0` at
every grid point with `r ≥ rcut`, and equals the shifted Lennard-Jones
expression `4*epsilon*((sigma/r)^12 - (sigma/r)^6) + epsilon` at every point
with `r < rcut`. -/
theorem wca_cutoff_and_shift (epsilon sigma : ℝ) (r : List ℝ) (i : Nat)
    (hi : i < r.length) :
    (r.getD i 0 ≥ sigma * (2:ℝ) ^ ((1:ℝ) / 6) →
      (LennardJones.evaluate (WeeksChandlerAndersen epsilon sigma) r).getD
        i 0 = 0) ∧
    (r.getD i 0 < sigma * (2:ℝ) ^ ((1:ℝ) / 6) →
      (LennardJones.evaluate (WeeksChandlerAndersen epsilon sigma) r).getD
        i 0 =
        4 * epsilon * ((sigma / r.getD i 0) ^ 12 - (sigma / r.getD i 0) ^ 6)
          + epsilon) := by
  have hmap : ∀ f : ℝ → ℝ, (r.map f).getD i 0 = f (r.getD i 0) := by
    intro f
    have hi2 : i < (r.map f).length := by simpa using hi
    rw [List.getD_eq_getElem _ _ hi2, List.getElem_map,
      List.getD_eq_getElem _ _ hi]
  constructor
  · intro hge
    rw [LennardJones.evaluate, hmap]
    simp only [WeeksChandlerAndersen]
    rw [if_pos hge]
  · intro hlt
    rw [LennardJones.evaluate, hmap]
    simp only [WeeksChandlerAndersen]
    rw [if_neg (not_le.mpr hlt)]
    simp

/-- Witness for C5 at a concrete input: `epsilon = 1`, `sigma = 1`,
`r = [2]`, index 0. -/
theorem wca_cutoff_and_shift_witness :
    (([(2:ℝ)]).getD 0 0 ≥ 1 * (2:ℝ) ^ ((1:ℝ) / 6) →
      (LennardJones.evaluate (WeeksChandlerAndersen 1 1) [2]).getD 0 0 =
        0) ∧
    (([(2:ℝ)]).getD 0 0 < 1 * (2:ℝ) ^ ((1:ℝ) / 6) →
      (LennardJones.evaluate (WeeksChandlerAndersen 1 1) [2]).getD 0 0 =
        4 * 1 * ((1 / ([(2:ℝ)]).getD 0 0) ^ 12 - (1 / ([(2:ℝ)]).getD 0 0)
          ^ 6) + 1) :=
  wca_cutoff_and_shift 1 1 [2] 0 (by simp)

end PyPRISM
